import Mathlib

/-!
# Verification of the btcpool share-statistics engine (`Statistics.cc`)

A shallow embedding of the share-aggregation core of `src/Statistics.cc`:

* `WorkerShares` with its sliding-window counters and `processShare`,
* the `StatsServer` registry (`_processShare`, `removeExpiredWorkers`,
  `mergeWorkerStatus`, `processShare`),
* `ShareStatsDay` hour/day rollups and their stats queries,
* `ShareLogWriter` day-file buffering and handle eviction,
* `ShareLogParser.processGrowingShareLog` cursor management.

Machine integers are modelled as `Nat`/`Int` (no overflow occurs in the
reachable states the theorems below quantify over); C `double` values
(share scores, reject rates) are modelled exactly as rationals.  Types that
live in headers that are not part of the translation unit (the `Share`
record layout, the `StatsWindow` ring buffer, a few constants) are modelled
from the specification and carry a `Modelled from the spec:` note.
-/

/-- Horizon of the sliding windows, seconds.  Modelled from the spec: the
constant lives in `Statistics.h`; the spec fixes the horizon at one hour
(3600 s) and `WorkerShares`'s constructor asserts it is at least 3600. -/
def STATS_SLIDING_WINDOW_SECONDS : Nat := 3600

/-- The `Share::Result` tag: 1 = ACCEPT, 2 = REJECT. -/
inductive ShareResult where
  | ACCEPT
  | REJECT
  deriving DecidableEq, Repr

/-- Modelled from the spec: the `Share` record (declared in `Stratum.h`,
outside this translation unit): `user_id` (i32), `worker_hash_id` (i64),
`ip` (u32), `timestamp` (u32 UNIX seconds), `share_weight` (u64), `score`
(floating point, modelled as an exact rational), `result`. -/
structure Share where
  userId : Int
  workerHashId : Int
  ip : Nat
  timestamp : Nat
  share : Nat
  score : Rat
  result : ShareResult
  deriving DecidableEq, Repr

/-- Modelled from the spec: `Share::isValid()` — the result tag is one of
the two enum values (always true of the typed model), the timestamp is
nonzero, and the share weight is positive. -/
def Share.isValid (s : Share) : Bool :=
  decide (s.timestamp ≠ 0) && decide (0 < s.share)

/-- Modelled from the spec: the `StatsWindow` sliding counter of
`Statistics.h` — a fixed-size ring of `(slot_key, value)` buckets addressed
by `slot_key mod size`. -/
structure StatsWindow where
  buckets : List (Nat × Nat)
  deriving DecidableEq, Repr

/-- A fresh window of `n` zeroed buckets. -/
def StatsWindow.mkWindow (n : Nat) : StatsWindow :=
  ⟨List.replicate n (0, 0)⟩

/-- Modelled from the spec: insertion with slot key `k` replaces a bucket
whose stored key differs from `k` (stale eviction) or adds to it (same
slot). -/
def StatsWindow.insert (w : StatsWindow) (k v : Nat) : StatsWindow :=
  let i := k % w.buckets.length
  match w.buckets.get? i with
  | some (sk, old) => ⟨w.buckets.set i (k, if sk = k then old + v else v)⟩
  | none => w

/-- Modelled from the spec: summation over a window `[now - width, now]`
walks only buckets whose stored slot key lies in that range. -/
def StatsWindow.sum (w : StatsWindow) (now width : Nat) : Nat :=
  (w.buckets.filter (fun b => decide (now - width ≤ b.1) && decide (b.1 ≤ now))).foldl
    (fun acc b => acc + b.2) 0

/-- The per-key aggregate `WorkerShares` of `Statistics.cc`: accept count,
last share ip/time, a per-second accept window and a per-minute reject
window. -/
structure WorkerShares where
  workerId : Int
  userId : Int
  acceptCount : Nat
  lastShareIP : Nat
  lastShareTime : Nat
  acceptShareSec : StatsWindow
  rejectShareMin : StatsWindow
  deriving DecidableEq, Repr

/-- Constructor `WorkerShares::WorkerShares(workerId, userId)`: zeroed counters, an
accept window of `STATS_SLIDING_WINDOW_SECONDS` one-second buckets and a
reject window of `STATS_SLIDING_WINDOW_SECONDS/60` one-minute buckets. -/
def WorkerShares.mkShares (workerId userId : Int) : WorkerShares :=
  { workerId := workerId
    userId := userId
    acceptCount := 0
    lastShareIP := 0
    lastShareTime := 0
    acceptShareSec := StatsWindow.mkWindow STATS_SLIDING_WINDOW_SECONDS
    rejectShareMin := StatsWindow.mkWindow (STATS_SLIDING_WINDOW_SECONDS / 60) }

/-- Source `WorkerShares::processShare` (Statistics.cc lines 67–83): skip a share
older than the horizon, otherwise bump `acceptCount_` and the per-second
accept window on ACCEPT, or the per-minute reject window on REJECT, and
unconditionally overwrite `lastShareIP_`/`lastShareTime_` with the share's
ip and timestamp. -/
def WorkerShares.processShare (now : Nat) (ws : WorkerShares) (sh : Share) : WorkerShares :=
  if sh.timestamp + STATS_SLIDING_WINDOW_SECONDS < now then ws
  else
    let ws1 :=
      match sh.result with
      | ShareResult.ACCEPT =>
          { ws with
            acceptCount := ws.acceptCount + 1
            acceptShareSec := ws.acceptShareSec.insert sh.timestamp sh.share }
      | ShareResult.REJECT =>
          { ws with
            rejectShareMin := ws.rejectShareMin.insert (sh.timestamp / 60) sh.share }
    { ws1 with lastShareIP := sh.ip, lastShareTime := sh.timestamp }

/-- Source `WorkerShares::isExpired` (Statistics.cc lines 122–125). -/
def WorkerShares.isExpired (now : Nat) (ws : WorkerShares) : Bool :=
  decide (ws.lastShareTime + STATS_SLIDING_WINDOW_SECONDS < now)

/-- The test `now > share.timestamp_ + STATS_SLIDING_WINDOW_SECONDS`
matches the spec's phrasing `now - share.timestamp > horizon` on `Nat`. -/
theorem horizon_guard_iff (now ts : Nat) :
    ts + STATS_SLIDING_WINDOW_SECONDS < now ↔
      STATS_SLIDING_WINDOW_SECONDS < now - ts := by
  omega

/-- Concrete aggregate used by the C1 counterexample: it has already seen a
share at time 100. -/
def cexShares : WorkerShares :=
  { WorkerShares.mkShares 5 1 with lastShareTime := 100, lastShareIP := 3 }

/-- Concrete in-horizon ACCEPT share with an out-of-order (older)
timestamp. -/
def cexShare : Share :=
  { userId := 1, workerHashId := 5, ip := 9, timestamp := 50, share := 1,
    score := 0, result := ShareResult.ACCEPT }

/-- C1 (counterexample): `WorkerShares::processShare` does NOT clamp
`lastShareTime_` to the maximum of its previous value and the incoming
timestamp.  An in-horizon share with timestamp 50 processed at `now = 100`
by an aggregate whose `lastShareTime_` is 100 lowers `lastShareTime_` to
50. -/
theorem workerShares_lastShareTime_not_clamped :
    100 - cexShare.timestamp ≤ STATS_SLIDING_WINDOW_SECONDS ∧
    (cexShares.processShare 100 cexShare).lastShareTime ≠
      max cexShares.lastShareTime cexShare.timestamp := by
  constructor
  · decide
  · decide

/-- C1 (amended): for an in-horizon share, `WorkerShares::processShare`
sets `lastShareTime_` to the incoming share's timestamp unconditionally, so
it is non-decreasing only when shares arrive in non-decreasing timestamp
order. -/
theorem workerShares_lastShareTime_assign (now : Nat) (ws : WorkerShares) (sh : Share)
    (h : now - sh.timestamp ≤ STATS_SLIDING_WINDOW_SECONDS) :
    (ws.processShare now sh).lastShareTime = sh.timestamp := by
  have hg : ¬ (sh.timestamp + STATS_SLIDING_WINDOW_SECONDS < now) := by
    have := h
    unfold STATS_SLIDING_WINDOW_SECONDS at *
    omega
  cases sh
  case mk userId workerHashId ip timestamp share score result =>
    cases result <;> simp [WorkerShares.processShare, hg]

/-- Witness for `workerShares_lastShareTime_assign` at a concrete input. -/
theorem workerShares_lastShareTime_assign_witness :
    ((WorkerShares.mkShares 5 1).processShare 100 cexShare).lastShareTime =
      cexShare.timestamp :=
  workerShares_lastShareTime_assign 100 (WorkerShares.mkShares 5 1) cexShare (by decide)

/-- C3: for an in-horizon share, `WorkerShares::processShare` increments
`acceptCount_` by exactly one and inserts the share's weight into the
per-second accept window when the result is ACCEPT (the reject window is
untouched); when the result is REJECT, `acceptCount_` is unchanged and the
weight goes into the per-minute reject window (the accept window is
untouched). -/
theorem workerShares_processShare_counters (now : Nat) (ws : WorkerShares) (sh : Share)
    (h : now - sh.timestamp ≤ STATS_SLIDING_WINDOW_SECONDS) :
    (sh.result = ShareResult.ACCEPT →
      (ws.processShare now sh).acceptCount = ws.acceptCount + 1 ∧
      (ws.processShare now sh).acceptShareSec =
        ws.acceptShareSec.insert sh.timestamp sh.share ∧
      (ws.processShare now sh).rejectShareMin = ws.rejectShareMin) ∧
    (sh.result = ShareResult.REJECT →
      (ws.processShare now sh).acceptCount = ws.acceptCount ∧
      (ws.processShare now sh).rejectShareMin =
        ws.rejectShareMin.insert (sh.timestamp / 60) sh.share ∧
      (ws.processShare now sh).acceptShareSec = ws.acceptShareSec) := by
  have hg : ¬ (sh.timestamp + STATS_SLIDING_WINDOW_SECONDS < now) := by
    have := h
    unfold STATS_SLIDING_WINDOW_SECONDS at *
    omega
  constructor <;> intro hr <;> simp [WorkerShares.processShare, hg, hr]

/-- Witness for `workerShares_processShare_counters` at a concrete input. -/
theorem workerShares_processShare_counters_witness :
    (cexShare.result = ShareResult.ACCEPT →
      (cexShares.processShare 100 cexShare).acceptCount = cexShares.acceptCount + 1 ∧
      (cexShares.processShare 100 cexShare).acceptShareSec =
        cexShares.acceptShareSec.insert cexShare.timestamp cexShare.share ∧
      (cexShares.processShare 100 cexShare).rejectShareMin = cexShares.rejectShareMin) ∧
    (cexShare.result = ShareResult.REJECT →
      (cexShares.processShare 100 cexShare).acceptCount = cexShares.acceptCount ∧
      (cexShares.processShare 100 cexShare).rejectShareMin =
        cexShares.rejectShareMin.insert (cexShare.timestamp / 60) cexShare.share ∧
      (cexShares.processShare 100 cexShare).acceptShareSec = cexShares.acceptShareSec) :=
  workerShares_processShare_counters 100 cexShares cexShare (by decide)

/-- The `WorkerStatus` snapshot of `Statistics.h`.  Modelled from the spec:
numeric sliding-window sums, the accept count and the last-share ip/time;
default-constructed snapshots are zero-valued ("unknown keys yield a
zero-valued status"). -/
structure WorkerStatus where
  accept1m : Nat
  accept5m : Nat
  accept15m : Nat
  reject15m : Nat
  accept1h : Nat
  reject1h : Nat
  acceptCount : Nat
  lastShareIP : Nat
  lastShareTime : Nat
  deriving DecidableEq, Repr

/-- The zero-valued status (`WorkerStatus s;` before the merge loop). -/
def WorkerStatus.zero : WorkerStatus :=
  { accept1m := 0, accept5m := 0, accept15m := 0, reject15m := 0,
    accept1h := 0, reject1h := 0, acceptCount := 0,
    lastShareIP := 0, lastShareTime := 0 }

/-- One iteration of the loop body of `StatsServer::mergeWorkerStatus`
(Statistics.cc lines 966–979): component-wise sums, and the time/ip pair is
replaced only when the input's `lastShareTime_` is strictly greater. -/
def mergeStep (s w : WorkerStatus) : WorkerStatus :=
  { accept1m := s.accept1m + w.accept1m
    accept5m := s.accept5m + w.accept5m
    accept15m := s.accept15m + w.accept15m
    reject15m := s.reject15m + w.reject15m
    accept1h := s.accept1h + w.accept1h
    reject1h := s.reject1h + w.reject1h
    acceptCount := s.acceptCount + w.acceptCount
    lastShareTime := if s.lastShareTime < w.lastShareTime then w.lastShareTime else s.lastShareTime
    lastShareIP := if s.lastShareTime < w.lastShareTime then w.lastShareIP else s.lastShareIP }

/-- Source `StatsServer::mergeWorkerStatus` (Statistics.cc lines 960–981): fold
the loop body over the inputs starting from the zero-valued status (the
early return on an empty vector returns exactly that zero). -/
def StatsServer.mergeWorkerStatus (l : List WorkerStatus) : WorkerStatus :=
  l.foldl mergeStep WorkerStatus.zero

/-- Maximum `lastShareTime` over a list of statuses (0 for the empty
list). -/
def listMaxTime (l : List WorkerStatus) : Nat :=
  l.foldr (fun w m => max w.lastShareTime m) 0

theorem listMaxTime_cons (w : WorkerStatus) (l : List WorkerStatus) :
    listMaxTime (w :: l) = max w.lastShareTime (listMaxTime l) := rfl

theorem mergeStep_time (s w : WorkerStatus) :
    (mergeStep s w).lastShareTime = max s.lastShareTime w.lastShareTime := by
  unfold mergeStep
  dsimp only
  split <;> omega

theorem mergeStep_ip (s w : WorkerStatus) :
    (mergeStep s w).lastShareIP =
      if s.lastShareTime < w.lastShareTime then w.lastShareIP else s.lastShareIP := rfl

/-- The running time/ip pair of the merge fold: the final time is the
maximum, the ip survives from the accumulator when nothing improves on it,
and otherwise comes from the first input attaining the list maximum. -/
theorem merge_fold_time_ip (l : List WorkerStatus) :
    ∀ s : WorkerStatus,
      (l.foldl mergeStep s).lastShareTime = max s.lastShareTime (listMaxTime l) ∧
      (listMaxTime l ≤ s.lastShareTime →
        (l.foldl mergeStep s).lastShareIP = s.lastShareIP) ∧
      (s.lastShareTime < listMaxTime l →
        (l.find? (fun w => decide (listMaxTime l ≤ w.lastShareTime))).map
            (fun w => w.lastShareIP) =
          some ((l.foldl mergeStep s).lastShareIP)) := by
  induction l with
  | nil =>
      intro s
      refine ⟨by simp [listMaxTime], fun _ => rfl, fun hlt => ?_⟩
      simp [listMaxTime] at hlt
  | cons w l ih =>
      intro s
      have hfold : (w :: l).foldl mergeStep s = l.foldl mergeStep (mergeStep s w) := rfl
      have ht1 : (mergeStep s w).lastShareTime = max s.lastShareTime w.lastShareTime :=
        mergeStep_time s w
      obtain ⟨iht, ihkeep, ihfind⟩ := ih (mergeStep s w)
      refine ⟨?_, ?_, ?_⟩
      · rw [hfold, iht, ht1, listMaxTime_cons, Nat.max_assoc]
      · intro hle
        rw [listMaxTime_cons] at hle
        have hw : w.lastShareTime ≤ s.lastShareTime := le_trans (Nat.le_max_left _ _) hle
        have hm : listMaxTime l ≤ s.lastShareTime := le_trans (Nat.le_max_right _ _) hle
        have hip : (mergeStep s w).lastShareIP = s.lastShareIP := by
          rw [mergeStep_ip, if_neg (by omega)]
        rw [hfold, ihkeep (by omega), hip]
      · intro hlt
        rw [listMaxTime_cons] at hlt
        by_cases hw : listMaxTime (w :: l) ≤ w.lastShareTime
        · -- the head attains the maximum: the fold keeps its ip
          rw [listMaxTime_cons] at hw
          have hwM : w.lastShareTime = max w.lastShareTime (listMaxTime l) := by omega
          have hfind : (w :: l).find? (fun x => decide (listMaxTime (w :: l) ≤ x.lastShareTime)) =
              some w := by
            rw [List.find?_cons]
            have : (fun x => decide (listMaxTime (w :: l) ≤ x.lastShareTime)) w = true := by
              simp [listMaxTime_cons]
              omega
            simp [this]
          have hip : (mergeStep s w).lastShareIP = w.lastShareIP := by
            rw [mergeStep_ip, if_pos (by omega)]
          have htime : (mergeStep s w).lastShareTime = w.lastShareTime := by omega
          rw [hfind, hfold, ihkeep (by omega), hip]
          rfl
        · -- the head does not attain the maximum: recurse into the tail
          rw [listMaxTime_cons] at hw
          have hM : max w.lastShareTime (listMaxTime l) = listMaxTime l := by omega
          have hfind : (w :: l).find? (fun x => decide (listMaxTime (w :: l) ≤ x.lastShareTime)) =
              l.find? (fun x => decide (listMaxTime (w :: l) ≤ x.lastShareTime)) := by
            rw [List.find?_cons]
            have : (fun x => decide (listMaxTime (w :: l) ≤ x.lastShareTime)) w = false := by
              simp [listMaxTime_cons]
              omega
            simp [this]
          have hpred : (fun x : WorkerStatus => decide (listMaxTime (w :: l) ≤ x.lastShareTime)) =
              (fun x : WorkerStatus => decide (listMaxTime l ≤ x.lastShareTime)) := by
            funext x
            rw [listMaxTime_cons, hM]
          have hlt1 : (mergeStep s w).lastShareTime < listMaxTime l := by omega
          rw [hfind, hpred, hfold]
          exact ihfind hlt1

theorem mem_time_le_listMaxTime (l : List WorkerStatus) :
    ∀ w ∈ l, w.lastShareTime ≤ listMaxTime l := by
  induction l with
  | nil => intro w hw; cases hw
  | cons x l ih =>
      intro w hw
      rw [listMaxTime_cons]
      rcases List.mem_cons.mp hw with hw | hw
      · subst hw; exact Nat.le_max_left _ _
      · exact le_trans (ih w hw) (Nat.le_max_right _ _)

theorem find?_congr_on {α : Type} (l : List α) (p q : α → Bool)
    (h : ∀ a ∈ l, p a = q a) : l.find? p = l.find? q := by
  induction l with
  | nil => rfl
  | cons x l ih =>
      rw [List.find?_cons, List.find?_cons, h x (by simp)]
      cases hq : q x
      · simp only [hq]
        exact ih (fun a ha => h a (by simp [ha]))
      · simp only [hq]

/-- Status with `lastShareTime = 0` but a nonzero ip, exhibiting the C10
edge case. -/
def cexStatus : WorkerStatus := { WorkerStatus.zero with lastShareIP := 7 }

/-- C10 (counterexample): when every input's `lastShareTime_` is 0, the
strict `>` comparison against the zero-initialised accumulator never fires,
so the merged ip stays 0 even though the (unique) earliest input attaining
the maximal `lastShareTime_` has ip 7. -/
theorem mergeWorkerStatus_zero_time_ip_lost :
    cexStatus.lastShareTime = listMaxTime [cexStatus] ∧
    (StatsServer.mergeWorkerStatus [cexStatus]).lastShareIP ≠ cexStatus.lastShareIP := by
  constructor
  · decide
  · decide

/-- C10 (amended): merging the empty list yields the all-zero status, and
whenever the maximal `lastShareTime` over the inputs is positive, the
merged `lastShareTime` is that maximum and the merged `lastShareIP` comes
from the earliest input (in list order) attaining it; if every input's
`lastShareTime` is 0, the merged ip is 0 instead. -/
theorem mergeWorkerStatus_first_max_ip (l : List WorkerStatus)
    (h : 0 < listMaxTime l) :
    StatsServer.mergeWorkerStatus [] = WorkerStatus.zero ∧
    (StatsServer.mergeWorkerStatus l).lastShareTime = listMaxTime l ∧
    (l.find? (fun w => decide (w.lastShareTime = listMaxTime l))).map
        (fun w => w.lastShareIP) =
      some ((StatsServer.mergeWorkerStatus l).lastShareIP) := by
  obtain ⟨ht, _, hfind⟩ := merge_fold_time_ip l WorkerStatus.zero
  have hz : WorkerStatus.zero.lastShareTime = 0 := rfl
  refine ⟨rfl, ?_, ?_⟩
  · unfold StatsServer.mergeWorkerStatus
    rw [ht, hz]
    omega
  · have hconv :
        l.find? (fun w => decide (w.lastShareTime = listMaxTime l)) =
          l.find? (fun w => decide (listMaxTime l ≤ w.lastShareTime)) := by
      refine find?_congr_on l _ _ (fun a ha => ?_)
      have hle := mem_time_le_listMaxTime l a ha
      have : (a.lastShareTime = listMaxTime l) ↔ (listMaxTime l ≤ a.lastShareTime) := by omega
      exact decide_eq_decide.mpr this
    rw [hconv]
    exact hfind (by omega)

/-- Status with a positive `lastShareTime`, used by the C10 witness. -/
def cexStatusPos : WorkerStatus :=
  { WorkerStatus.zero with lastShareIP := 7, lastShareTime := 3 }

/-- Witness for `mergeWorkerStatus_first_max_ip` at a concrete input. -/
theorem mergeWorkerStatus_first_max_ip_witness :
    StatsServer.mergeWorkerStatus [] = WorkerStatus.zero ∧
    (StatsServer.mergeWorkerStatus [cexStatusPos]).lastShareTime = listMaxTime [cexStatusPos] ∧
    ([cexStatusPos].find? (fun w => decide (w.lastShareTime = listMaxTime [cexStatusPos]))).map
        (fun w => w.lastShareIP) =
      some ((StatsServer.mergeWorkerStatus [cexStatusPos]).lastShareIP) :=
  mergeWorkerStatus_first_max_ip [cexStatusPos] (by decide)

/-- A `WorkerKey` is the pair (user_id, worker_hash_id). -/
abbrev WorkerKey := Int × Int

/-- Association-list lookup, the model of `std::map::find` /
`std::unordered_map::find`. -/
def alookup {α β : Type} [DecidableEq α] : List (α × β) → α → Option β
  | [], _ => none
  | e :: rest, a => if e.1 = a then some e.2 else alookup rest a

/-- In-place update of the value stored under a key (the model of mutating
`itr->second`). -/
def aupdate {α β : Type} [DecidableEq α] (l : List (α × β)) (a : α) (f : β → β) :
    List (α × β) :=
  l.map (fun e => if e.1 = a then (e.1, f e.2) else e)

/-- Erase the entries stored under a key (the model of `map::erase`). -/
def aerase {α β : Type} [DecidableEq α] (l : List (α × β)) (a : α) : List (α × β) :=
  l.filter (fun e => decide (e.1 ≠ a))

/-- Increment `userWorkerCount_[userId]++`: `operator[]` default-constructs a zero on
a miss, then the count is incremented. -/
def incUserWorkerCount (l : List (Int × Int)) (u : Int) : List (Int × Int) :=
  match alookup l u with
  | some c => aupdate l u (fun _ => c + 1)
  | none => (u, 1) :: l

/-- Decrement `userWorkerCount_[userId]--` followed by
`if (userWorkerCount_[userId] <= 0) erase` (Statistics.cc lines 894–898);
on a miss `operator[]` creates a zero which the decrement takes to -1,
which is then erased. -/
def decUserWorkerCount (l : List (Int × Int)) (u : Int) : List (Int × Int) :=
  let c := (alookup l u).getD 0 - 1
  if c ≤ 0 then aerase l u else aupdate l u (fun _ => c)

/-- The `StatsServer` registry state: the worker map, the user map, the
per-user worker count, the two totals, the pool aggregate (key (0,0)) and
the most recent upstream share timestamp. -/
structure StatsServer where
  workerSet : List (WorkerKey × WorkerShares)
  userSet : List (Int × WorkerShares)
  userWorkerCount : List (Int × Int)
  totalWorkerCount : Nat
  totalUserCount : Nat
  poolWorker : WorkerShares
  lastShareTime : Nat
  deriving DecidableEq, Repr

/-- The freshly constructed server: empty maps, zero totals, pool aggregate
`WorkerShares(0, 0)`. -/
def StatsServer.mkServer : StatsServer :=
  { workerSet := []
    userSet := []
    userWorkerCount := []
    totalWorkerCount := 0
    totalUserCount := 0
    poolWorker := WorkerShares.mkShares 0 0
    lastShareTime := 0 }

/-- Source `StatsServer::_processShare` (Statistics.cc lines 292–329): look the
key up in the worker and user maps; update found aggregates in place;
otherwise construct a fresh aggregate, feed it the share, and insert it
under the write lock, bumping the totals and the per-user worker count. -/
def StatsServer._processShare (now : Nat) (st : StatsServer) (key : WorkerKey)
    (sh : Share) : StatsServer :=
  let workerFound := (alookup st.workerSet key).isSome
  let userFound := (alookup st.userSet key.1).isSome
  let st1 :=
    { st with
      workerSet :=
        if workerFound then aupdate st.workerSet key (fun ws => ws.processShare now sh)
        else st.workerSet
      userSet :=
        if userFound then aupdate st.userSet key.1 (fun ws => ws.processShare now sh)
        else st.userSet }
  let st2 :=
    if workerFound then st1
    else
      { st1 with
        workerSet :=
          (key, (WorkerShares.mkShares sh.workerHashId sh.userId).processShare now sh) ::
            st1.workerSet
        totalWorkerCount := st1.totalWorkerCount + 1
        userWorkerCount := incUserWorkerCount st1.userWorkerCount key.1 }
  if userFound then st2
  else
    { st2 with
      userSet :=
        (key.1, (WorkerShares.mkShares sh.workerHashId sh.userId).processShare now sh) ::
          st2.userSet
      totalUserCount := st2.totalUserCount + 1 }

/-- Source `StatsServer::processShare` (Statistics.cc lines 277–290): record the
upstream timestamp, drop shares older than the horizon, feed the pool
aggregate, then `_processShare` the worker/user key. -/
def StatsServer.processShare (now : Nat) (st : StatsServer) (sh : Share) : StatsServer :=
  let st := { st with lastShareTime := sh.timestamp }
  if sh.timestamp + STATS_SLIDING_WINDOW_SECONDS < now then st
  else
    let st := { st with poolWorker := st.poolWorker.processShare now sh }
    st._processShare now (sh.userId, sh.workerHashId) sh

/-- The worker-erasure loop of `StatsServer::removeExpiredWorkers`
(Statistics.cc lines 885–902): walk the worker map; every expired entry is
erased, the per-user worker count is decremented (erased at zero), and the
number of removals is returned. -/
def removeExpiredWorkersGo (now : Nat) :
    List (WorkerKey × WorkerShares) → List (Int × Int) →
      List (WorkerKey × WorkerShares) × List (Int × Int) × Nat
  | [], uwc => ([], uwc, 0)
  | e :: rest, uwc =>
      if e.2.isExpired now then
        let r := removeExpiredWorkersGo now rest (decUserWorkerCount uwc e.1.1)
        (r.1, r.2.1, r.2.2 + 1)
      else
        let r := removeExpiredWorkersGo now rest uwc
        (e :: r.1, r.2.1, r.2.2)

/-- Source `StatsServer::removeExpiredWorkers` (Statistics.cc lines 878–921): the
worker loop above plus the user-erasure loop, with both totals decremented
once per removal. -/
def StatsServer.removeExpiredWorkers (now : Nat) (st : StatsServer) : StatsServer :=
  let r := removeExpiredWorkersGo now st.workerSet st.userWorkerCount
  { st with
    workerSet := r.1
    userWorkerCount := r.2.1
    totalWorkerCount := st.totalWorkerCount - r.2.2
    userSet := st.userSet.filter (fun e => ! e.2.isExpired now)
    totalUserCount := st.totalUserCount - st.userSet.countP (fun e => e.2.isExpired now) }

/-- One registry operation of claim C2: a direct `_processShare` call or an
expiry sweep. -/
inductive RegistryOp where
  | procShare (now : Nat) (key : WorkerKey) (sh : Share)
  | expire (now : Nat)

/-- Apply one registry operation. -/
def StatsServer.applyOp (st : StatsServer) : RegistryOp → StatsServer
  | RegistryOp.procShare now key sh => st._processShare now key sh
  | RegistryOp.expire now => st.removeExpiredWorkers now

/-- Run a sequence of registry operations from the freshly constructed
server. -/
def StatsServer.runOps (ops : List RegistryOp) : StatsServer :=
  ops.foldl StatsServer.applyOp StatsServer.mkServer

/-- The keys of an association list. -/
def akeys {α β : Type} (l : List (α × β)) : List α := l.map Prod.fst

theorem alookup_cons {α β : Type} [DecidableEq α] (e : α × β) (rest : List (α × β))
    (a : α) : alookup (e :: rest) a = if e.1 = a then some e.2 else alookup rest a := rfl

theorem akeys_cons {α β : Type} (e : α × β) (rest : List (α × β)) :
    akeys (e :: rest) = e.1 :: akeys rest := rfl

theorem aupdate_cons {α β : Type} [DecidableEq α] (e : α × β) (rest : List (α × β))
    (a : α) (f : β → β) :
    aupdate (e :: rest) a f =
      (if e.1 = a then (e.1, f e.2) else e) :: aupdate rest a f := rfl

theorem aerase_cons {α β : Type} [DecidableEq α] (e : α × β) (rest : List (α × β))
    (a : α) :
    aerase (e :: rest) a = if e.1 = a then aerase rest a else e :: aerase rest a := by
  by_cases he : e.1 = a <;> simp [aerase, he]

theorem alookup_eq_none_iff {α β : Type} [DecidableEq α] (l : List (α × β)) (a : α) :
    alookup l a = none ↔ a ∉ akeys l := by
  induction l with
  | nil => simp [alookup, akeys]
  | cons e rest ih =>
      rw [alookup_cons, akeys_cons]
      by_cases he : e.1 = a
      · simp [he]
      · simp only [he, if_false, List.mem_cons]
        rw [ih]
        constructor
        · intro h hmem
          rcases hmem with hmem | hmem
          · exact he hmem.symm
          · exact h hmem
        · intro h hmem
          exact h (Or.inr hmem)

theorem akeys_aupdate {α β : Type} [DecidableEq α] (l : List (α × β)) (a : α) (f : β → β) :
    akeys (aupdate l a f) = akeys l := by
  induction l with
  | nil => rfl
  | cons e rest ih =>
      rw [aupdate_cons, akeys_cons, akeys_cons, ih]
      by_cases he : e.1 = a <;> simp [he]

theorem length_aupdate {α β : Type} [DecidableEq α] (l : List (α × β)) (a : α) (f : β → β) :
    (aupdate l a f).length = l.length := by
  unfold aupdate
  exact List.length_map _ _

theorem alookup_aupdate_self {α β : Type} [DecidableEq α] (l : List (α × β)) (a : α)
    (f : β → β) : alookup (aupdate l a f) a = (alookup l a).map f := by
  induction l with
  | nil => rfl
  | cons e rest ih =>
      rw [aupdate_cons, alookup_cons, alookup_cons]
      by_cases he : e.1 = a
      · simp [he]
      · simp [he, ih]

theorem alookup_aupdate_ne {α β : Type} [DecidableEq α] (l : List (α × β)) (a b : α)
    (f : β → β) (hne : a ≠ b) : alookup (aupdate l a f) b = alookup l b := by
  induction l with
  | nil => rfl
  | cons e rest ih =>
      rw [aupdate_cons, alookup_cons, alookup_cons]
      by_cases he : e.1 = a
      · have heb : ¬ e.1 = b := by rw [he]; exact hne
        simp [he, hne, heb, ih]
      · by_cases heb : e.1 = b
        · simp [he, heb, Ne.symm hne]
        · simp [he, heb, ih]

theorem alookup_aerase_self {α β : Type} [DecidableEq α] (l : List (α × β)) (a : α) :
    alookup (aerase l a) a = none := by
  induction l with
  | nil => rfl
  | cons e rest ih =>
      rw [aerase_cons]
      by_cases he : e.1 = a
      · simp [he, ih]
      · simp [he, alookup_cons, ih]

theorem alookup_aerase_ne {α β : Type} [DecidableEq α] (l : List (α × β)) (a b : α)
    (hne : a ≠ b) : alookup (aerase l a) b = alookup l b := by
  induction l with
  | nil => rfl
  | cons e rest ih =>
      rw [aerase_cons, alookup_cons]
      by_cases he : e.1 = a
      · have heb : ¬ e.1 = b := by rw [he]; exact hne
        simp [he, heb, hne, ih]
      · by_cases heb : e.1 = b
        · simp [he, heb, alookup_cons, Ne.symm hne]
        · simp [he, heb, alookup_cons, ih]

theorem akeys_aerase_sublist {α β : Type} [DecidableEq α] (l : List (α × β)) (a : α) :
    (akeys (aerase l a)).Sublist (akeys l) :=
  List.Sublist.map Prod.fst (List.filter_sublist l)

theorem nodup_akeys_aerase {α β : Type} [DecidableEq α] (l : List (α × β)) (a : α)
    (h : (akeys l).Nodup) : (akeys (aerase l a)).Nodup :=
  (akeys_aerase_sublist l a).nodup h

/-- Number of entries of the worker map belonging to user `u`. -/
def wcount (w : List (WorkerKey × WorkerShares)) (u : Int) : Nat :=
  w.countP (fun e => decide (e.1.1 = u))

theorem wcount_nil (u : Int) : wcount [] u = 0 := rfl

theorem wcount_cons (e : WorkerKey × WorkerShares) (w : List (WorkerKey × WorkerShares))
    (u : Int) :
    wcount (e :: w) u = wcount w u + (if e.1.1 = u then 1 else 0) := by
  unfold wcount
  rw [List.countP_cons]
  by_cases he : e.1.1 = u <;> simp [he]

theorem wcount_aupdate (w : List (WorkerKey × WorkerShares)) (k : WorkerKey)
    (f : WorkerShares → WorkerShares) (u : Int) :
    wcount (aupdate w k f) u = wcount w u := by
  induction w with
  | nil => rfl
  | cons e rest ih =>
      rw [aupdate_cons, wcount_cons, wcount_cons, ih]
      by_cases he : e.1 = k <;> simp [he]

/-- The per-user worker-count map agrees with the worker map: a user's
entry is present exactly when the user owns at least one worker, and then
stores the exact count. -/
def UwcInv (w : List (WorkerKey × WorkerShares)) (uwc : List (Int × Int)) : Prop :=
  ∀ u : Int, alookup uwc u =
    if wcount w u = 0 then none else some ((wcount w u : Nat) : Int)

/-- Sum of the stored per-user worker counts. -/
def sumVals (l : List (Int × Int)) : Int := (l.map Prod.snd).sum

/-- The inductive registry invariant: nodup keys everywhere, totals equal
to map sizes, and the per-user worker counts agree with the worker map. -/
def RegInv (st : StatsServer) : Prop :=
  (akeys st.workerSet).Nodup ∧
  (akeys st.userSet).Nodup ∧
  (akeys st.userWorkerCount).Nodup ∧
  st.totalWorkerCount = st.workerSet.length ∧
  st.totalUserCount = st.userSet.length ∧
  UwcInv st.workerSet st.userWorkerCount

/-- A nodup-keyed count map that agrees with a worker map sums to the
worker map's size. -/
theorem sumVals_of_uwcInv :
    ∀ (uwc : List (Int × Int)) (w : List (WorkerKey × WorkerShares)),
      (akeys uwc).Nodup → UwcInv w uwc → sumVals uwc = (w.length : Int) := by
  intro uwc
  induction uwc with
  | nil =>
      intro w _ hinv
      have hall : ∀ u, wcount w u = 0 := by
        intro u
        have := hinv u
        by_cases hz : wcount w u = 0
        · exact hz
        · rw [if_neg hz] at this
          cases this
      cases w with
      | nil => rfl
      | cons e rest =>
          exfalso
          have := hall e.1.1
          rw [wcount_cons, if_pos rfl] at this
          omega
  | cons p rest ih =>
      intro w hnd hinv
      have hhead := hinv p.1
      rw [alookup_cons, if_pos rfl] at hhead
      have hz : ¬ wcount w p.1 = 0 := by
        by_cases hz : wcount w p.1 = 0
        · rw [if_pos hz] at hhead; cases hhead
        · exact hz
      rw [if_neg hz] at hhead
      have hp2 : p.2 = ((wcount w p.1 : Nat) : Int) := by
        injection hhead.symm with h
        exact h.symm
      -- the worker entries not belonging to p.1
      set w' := w.filter (fun e => ! decide (e.1.1 = p.1)) with hw'
      have hwc' : ∀ u : Int, wcount w' u = if u = p.1 then 0 else wcount w u := by
        intro u
        by_cases hu : u = p.1
        · subst hu
          rw [if_pos rfl]
          unfold wcount
          rw [hw', List.countP_filter]
          simp
        · rw [if_neg hu]
          unfold wcount
          rw [hw', List.countP_filter]
          congr 1
          funext e
          by_cases he : e.1.1 = u
          · have hne2 : ¬ e.1.1 = p.1 := by rw [he]; exact hu
            simp [he, hne2, hu]
          · simp [he]
      have hnd' : (akeys rest).Nodup := by
        rw [akeys_cons] at hnd
        exact hnd.of_cons
      have hnotmem : p.1 ∉ akeys rest := by
        rw [akeys_cons] at hnd
        exact (List.nodup_cons.mp hnd).1
      have hinv' : UwcInv w' rest := by
        intro u
        by_cases hu : u = p.1
        · subst hu
          rw [(alookup_eq_none_iff rest p.1).mpr hnotmem, hwc' p.1, if_pos rfl]
          simp
        · have : alookup (p :: rest) u = alookup rest u := by
            rw [alookup_cons, if_neg (fun h => hu h.symm)]
          rw [← this, hinv u, hwc' u, if_neg hu]
      have hlenGen : ∀ v : List (WorkerKey × WorkerShares),
          v.length = (v.filter (fun e => ! decide (e.1.1 = p.1))).length + wcount v p.1 := by
        intro v
        induction v with
        | nil => rfl
        | cons e r ihr =>
            rw [wcount_cons, List.filter_cons]
            by_cases he : e.1.1 = p.1 <;> simp [he, ihr] <;> omega
      have hlen : w.length = w'.length + wcount w p.1 := by
        rw [hw']
        exact hlenGen w
      have hsum : sumVals (p :: rest) = p.2 + sumVals rest := by
        unfold sumVals
        simp
      rw [hsum, ih w' hnd' hinv', hp2, hlen]
      push_cast
      ring

theorem alookup_inc_self (l : List (Int × Int)) (u : Int) :
    alookup (incUserWorkerCount l u) u = some ((alookup l u).getD 0 + 1) := by
  unfold incUserWorkerCount
  cases hl : alookup l u with
  | none =>
      simp [alookup_cons, hl]
  | some c =>
      rw [alookup_aupdate_self, hl]
      rfl

theorem alookup_inc_ne (l : List (Int × Int)) (u v : Int) (h : u ≠ v) :
    alookup (incUserWorkerCount l u) v = alookup l v := by
  unfold incUserWorkerCount
  cases hl : alookup l u with
  | none => simp [alookup_cons, h]
  | some c => exact alookup_aupdate_ne l u v _ h

theorem nodup_akeys_inc (l : List (Int × Int)) (u : Int)
    (h : (akeys l).Nodup) : (akeys (incUserWorkerCount l u)).Nodup := by
  unfold incUserWorkerCount
  cases hl : alookup l u with
  | none =>
      rw [akeys_cons]
      exact List.nodup_cons.mpr ⟨(alookup_eq_none_iff l u).mp hl, h⟩
  | some c =>
      rw [akeys_aupdate]
      exact h

theorem alookup_dec_self (l : List (Int × Int)) (u : Int) :
    alookup (decUserWorkerCount l u) u =
      if (alookup l u).getD 0 - 1 ≤ 0 then none
      else some ((alookup l u).getD 0 - 1) := by
  unfold decUserWorkerCount
  by_cases hc : (alookup l u).getD 0 - 1 ≤ 0
  · simp only [hc, if_pos]
    exact alookup_aerase_self l u
  · simp only [hc, if_neg, if_false]
    cases hl : alookup l u with
    | none =>
        exfalso
        rw [hl] at hc
        simp at hc
    | some c =>
        rw [alookup_aupdate_self, hl]
        rfl

theorem alookup_dec_ne (l : List (Int × Int)) (u v : Int) (h : u ≠ v) :
    alookup (decUserWorkerCount l u) v = alookup l v := by
  unfold decUserWorkerCount
  by_cases hc : (alookup l u).getD 0 - 1 ≤ 0
  · simp only [hc, if_pos]
    exact alookup_aerase_ne l u v h
  · simp only [hc, if_neg, if_false]
    exact alookup_aupdate_ne l u v _ h

theorem nodup_akeys_dec (l : List (Int × Int)) (u : Int)
    (h : (akeys l).Nodup) : (akeys (decUserWorkerCount l u)).Nodup := by
  unfold decUserWorkerCount
  by_cases hc : (alookup l u).getD 0 - 1 ≤ 0
  · simp only [hc, if_pos]
    exact nodup_akeys_aerase l u h
  · simp only [hc, if_neg, if_false]
    rw [akeys_aupdate]
    exact h

theorem uwcInv_aupdate (w : List (WorkerKey × WorkerShares)) (uwc : List (Int × Int))
    (k : WorkerKey) (f : WorkerShares → WorkerShares) (h : UwcInv w uwc) :
    UwcInv (aupdate w k f) uwc := by
  intro u
  rw [wcount_aupdate]
  exact h u

theorem uwcInv_insert (w : List (WorkerKey × WorkerShares)) (uwc : List (Int × Int))
    (key : WorkerKey) (ws : WorkerShares) (h : UwcInv w uwc) :
    UwcInv ((key, ws) :: w) (incUserWorkerCount uwc key.1) := by
  intro u
  by_cases hu : key.1 = u
  · subst hu
    rw [alookup_inc_self, wcount_cons, h key.1]
    have hne : ¬ wcount w key.1 + (if key.1 = key.1 then 1 else 0) = 0 := by
      simp
    rw [if_neg hne]
    by_cases hz : wcount w key.1 = 0
    · simp [hz]
    · rw [if_neg hz]
      simp only [Option.getD_some, if_pos rfl]
      congr 1
  · rw [alookup_inc_ne uwc key.1 u hu, wcount_cons, if_neg hu]
    rw [h u]
    simp

theorem isSome_false_eq_none {α : Type} (o : Option α) (h : o.isSome = false) :
    o = none := by
  cases o with
  | none => rfl
  | some a => cases h

/-- Helper: `_processShare` preserves the registry invariant. -/
theorem regInv_processShare (now : Nat) (st : StatsServer) (key : WorkerKey) (sh : Share)
    (h : RegInv st) : RegInv (st._processShare now key sh) := by
  obtain ⟨hw, hu, hc, htw, htu, hinv⟩ := h
  unfold StatsServer._processShare
  cases hwf : (alookup st.workerSet key).isSome with
  | true =>
      cases huf : (alookup st.userSet key.1).isSome with
      | true =>
          -- both found: in-place updates only
          simp only [hwf, huf, if_true]
          unfold RegInv
          refine ⟨?_, ?_, ?_, ?_, ?_, ?_⟩ <;> dsimp only
          · rw [akeys_aupdate]; exact hw
          · rw [akeys_aupdate]; exact hu
          · exact hc
          · rw [length_aupdate]; exact htw
          · rw [length_aupdate]; exact htu
          · exact uwcInv_aupdate _ _ _ _ hinv
      | false =>
          -- worker found, user missing
          have hnou : key.1 ∉ akeys st.userSet :=
            (alookup_eq_none_iff _ _).mp (isSome_false_eq_none _ huf)
          simp only [hwf, huf, if_true, Bool.false_eq_true, if_false]
          unfold RegInv
          refine ⟨?_, ?_, ?_, ?_, ?_, ?_⟩ <;> dsimp only
          · rw [akeys_aupdate]; exact hw
          · rw [akeys_cons]
            exact List.nodup_cons.mpr ⟨hnou, hu⟩
          · exact hc
          · rw [length_aupdate]; exact htw
          · simp [htu]
          · exact uwcInv_aupdate _ _ _ _ hinv
  | false =>
      have hnow : key ∉ akeys st.workerSet :=
        (alookup_eq_none_iff _ _).mp (isSome_false_eq_none _ hwf)
      cases huf : (alookup st.userSet key.1).isSome with
      | true =>
          -- worker missing, user found
          simp only [hwf, huf, if_true, Bool.false_eq_true, if_false]
          unfold RegInv
          refine ⟨?_, ?_, ?_, ?_, ?_, ?_⟩ <;> dsimp only
          · rw [akeys_cons]
            exact List.nodup_cons.mpr ⟨hnow, hw⟩
          · rw [akeys_aupdate]; exact hu
          · exact nodup_akeys_inc _ _ hc
          · simp [htw]
          · rw [length_aupdate]; exact htu
          · exact uwcInv_insert _ _ _ _ hinv
      | false =>
          -- both missing
          have hnou : key.1 ∉ akeys st.userSet :=
            (alookup_eq_none_iff _ _).mp (isSome_false_eq_none _ huf)
          simp only [hwf, huf, Bool.false_eq_true, if_false]
          unfold RegInv
          refine ⟨?_, ?_, ?_, ?_, ?_, ?_⟩ <;> dsimp only
          · rw [akeys_cons]
            exact List.nodup_cons.mpr ⟨hnow, hw⟩
          · rw [akeys_cons]
            exact List.nodup_cons.mpr ⟨hnou, hu⟩
          · exact nodup_akeys_inc _ _ hc
          · simp [htw]
          · simp [htu]
          · exact uwcInv_insert _ _ _ _ hinv

theorem length_filter_not_add_countP {α : Type} (l : List α) (p : α → Bool) :
    (l.filter (fun a => ! p a)).length + l.countP p = l.length := by
  induction l with
  | nil => rfl
  | cons e rest ih =>
      rw [List.filter_cons, List.countP_cons]
      cases hp : p e <;> simp [hp] <;> omega

/-- Full behaviour of the worker-erasure loop: it keeps exactly the
unexpired entries, returns the number of expired ones, and keeps the
per-user count map consistent (the parameter `g` counts workers owned by
each user outside the remaining list). -/
theorem removeExpiredWorkersGo_spec (now : Nat) :
    ∀ (l : List (WorkerKey × WorkerShares)) (uwc : List (Int × Int)) (g : Int → Nat),
      (akeys uwc).Nodup →
      (∀ u, alookup uwc u =
        if g u + wcount l u = 0 then none else some ((g u + wcount l u : Nat) : Int)) →
      (removeExpiredWorkersGo now l uwc).1 = l.filter (fun e => ! e.2.isExpired now) ∧
      (removeExpiredWorkersGo now l uwc).2.2 = l.countP (fun e => e.2.isExpired now) ∧
      (akeys (removeExpiredWorkersGo now l uwc).2.1).Nodup ∧
      (∀ u, alookup (removeExpiredWorkersGo now l uwc).2.1 u =
        if g u + wcount (removeExpiredWorkersGo now l uwc).1 u = 0 then none
        else some ((g u + wcount (removeExpiredWorkersGo now l uwc).1 u : Nat) : Int)) := by
  intro l
  induction l with
  | nil =>
      intro uwc g hnd hlk
      exact ⟨rfl, rfl, hnd, fun u => hlk u⟩
  | cons e rest ih =>
      intro uwc g hnd hlk
      cases hexp : e.2.isExpired now with
      | true =>
          have hgo : removeExpiredWorkersGo now (e :: rest) uwc =
              ((removeExpiredWorkersGo now rest (decUserWorkerCount uwc e.1.1)).1,
               (removeExpiredWorkersGo now rest (decUserWorkerCount uwc e.1.1)).2.1,
               (removeExpiredWorkersGo now rest (decUserWorkerCount uwc e.1.1)).2.2 + 1) := by
            simp [removeExpiredWorkersGo, hexp]
          have hnd' : (akeys (decUserWorkerCount uwc e.1.1)).Nodup :=
            nodup_akeys_dec uwc e.1.1 hnd
          have hlk' : ∀ u, alookup (decUserWorkerCount uwc e.1.1) u =
              if g u + wcount rest u = 0 then none
              else some ((g u + wcount rest u : Nat) : Int) := by
            intro u
            by_cases hu : e.1.1 = u
            · subst hu
              have hcnt : wcount (e :: rest) e.1.1 = wcount rest e.1.1 + 1 := by
                rw [wcount_cons, if_pos rfl]
              have hlke := hlk e.1.1
              rw [hcnt] at hlke
              have hne : ¬ g e.1.1 + (wcount rest e.1.1 + 1) = 0 := by omega
              rw [if_neg hne] at hlke
              rw [alookup_dec_self, hlke]
              by_cases hz : g e.1.1 + wcount rest e.1.1 = 0
              · rw [if_pos hz]
                rw [if_pos]
                simp only [Option.getD_some]
                omega
              · rw [if_neg hz]
                rw [if_neg]
                · congr 1
                  simp only [Option.getD_some]
                  push_cast
                  ring
                · simp only [Option.getD_some]
                  omega
            · rw [alookup_dec_ne uwc e.1.1 u hu, hlk u, wcount_cons, if_neg hu]
              simp
          obtain ⟨ih1, ih2, ih3, ih4⟩ := ih (decUserWorkerCount uwc e.1.1) g hnd' hlk'
          rw [hgo]
          refine ⟨?_, ?_, ih3, ih4⟩
          · rw [List.filter_cons]
            simp only [hexp, Bool.not_true, if_false]
            exact ih1
          · rw [List.countP_cons, ih2]
            simp [hexp]
      | false =>
          have hgo : removeExpiredWorkersGo now (e :: rest) uwc =
              (e :: (removeExpiredWorkersGo now rest uwc).1,
               (removeExpiredWorkersGo now rest uwc).2.1,
               (removeExpiredWorkersGo now rest uwc).2.2) := by
            simp [removeExpiredWorkersGo, hexp]
          have hlk' : ∀ u, alookup uwc u =
              if (g u + (if e.1.1 = u then 1 else 0)) + wcount rest u = 0 then none
              else some (((g u + (if e.1.1 = u then 1 else 0)) + wcount rest u : Nat) : Int) := by
            intro u
            rw [hlk u, wcount_cons]
            have harith : g u + (wcount rest u + (if e.1.1 = u then 1 else 0)) =
                (g u + (if e.1.1 = u then 1 else 0)) + wcount rest u := by omega
            rw [harith]
          obtain ⟨ih1, ih2, ih3, ih4⟩ :=
            ih uwc (fun u => g u + (if e.1.1 = u then 1 else 0)) hnd hlk'
          rw [hgo]
          refine ⟨?_, ?_, ih3, ?_⟩
          · rw [List.filter_cons]
            simp only [hexp, Bool.not_false, if_true]
            rw [ih1]
          · rw [List.countP_cons, ih2]
            simp [hexp]
          · intro u
            rw [ih4 u, wcount_cons]
            have harith : (g u + (if e.1.1 = u then 1 else 0)) +
                wcount (removeExpiredWorkersGo now rest uwc).1 u =
                g u + (wcount (removeExpiredWorkersGo now rest uwc).1 u +
                  (if e.1.1 = u then 1 else 0)) := by omega
            rw [harith]

/-- Helper: `removeExpiredWorkers` preserves the registry invariant. -/
theorem regInv_removeExpired (now : Nat) (st : StatsServer) (h : RegInv st) :
    RegInv (st.removeExpiredWorkers now) := by
  obtain ⟨hw, hu, hc, htw, htu, hinv⟩ := h
  have hlk0 : ∀ u, alookup st.userWorkerCount u =
      if (fun _ : Int => 0) u + wcount st.workerSet u = 0 then none
      else some (((fun _ : Int => 0) u + wcount st.workerSet u : Nat) : Int) := by
    intro u
    simpa using hinv u
  obtain ⟨h1, h2, h3, h4⟩ :=
    removeExpiredWorkersGo_spec now st.workerSet st.userWorkerCount (fun _ => 0) hc hlk0
  unfold StatsServer.removeExpiredWorkers RegInv
  refine ⟨?_, ?_, ?_, ?_, ?_, ?_⟩ <;> dsimp only
  · rw [h1]
    exact (List.Sublist.map Prod.fst (List.filter_sublist st.workerSet)).nodup hw
  · exact (List.Sublist.map Prod.fst (List.filter_sublist st.userSet)).nodup hu
  · exact h3
  · rw [h1, h2, htw]
    have := length_filter_not_add_countP st.workerSet (fun e => e.2.isExpired now)
    omega
  · rw [htu]
    have := length_filter_not_add_countP st.userSet (fun e => e.2.isExpired now)
    omega
  · intro u
    simpa using h4 u

theorem regInv_mkServer : RegInv StatsServer.mkServer := by
  refine ⟨List.nodup_nil, List.nodup_nil, List.nodup_nil, rfl, rfl, ?_⟩
  intro u
  rfl

theorem regInv_foldl (ops : List RegistryOp) :
    ∀ st : StatsServer, RegInv st → RegInv (ops.foldl StatsServer.applyOp st) := by
  induction ops with
  | nil => intro st h; exact h
  | cons op rest ih =>
      intro st h
      cases op with
      | procShare now key sh => exact ih _ (regInv_processShare now st key sh h)
      | expire now => exact ih _ (regInv_removeExpired now st h)

/-- C2: in every registry state reachable from the fresh server by any
sequence of `_processShare` and `removeExpiredWorkers` calls,
`totalWorkerCount_` equals the size of the worker map, `totalUserCount_`
equals the size of the user map, and the per-user worker counts sum to
`totalWorkerCount_`. -/
theorem registry_totals_invariant (ops : List RegistryOp) :
    (StatsServer.runOps ops).totalWorkerCount = (StatsServer.runOps ops).workerSet.length ∧
    (StatsServer.runOps ops).totalUserCount = (StatsServer.runOps ops).userSet.length ∧
    sumVals (StatsServer.runOps ops).userWorkerCount =
      ((StatsServer.runOps ops).totalWorkerCount : Int) := by
  have h : RegInv (StatsServer.runOps ops) :=
    regInv_foldl ops StatsServer.mkServer regInv_mkServer
  obtain ⟨_, _, hc, htw, htu, hinv⟩ := h
  refine ⟨htw, htu, ?_⟩
  rw [sumVals_of_uwcInv _ _ hc hinv, htw]

theorem removeExpiredWorkersGo_kept (now : Nat) :
    ∀ (l : List (WorkerKey × WorkerShares)) (uwc : List (Int × Int)),
      (removeExpiredWorkersGo now l uwc).1 =
        l.filter (fun e => ! e.2.isExpired now) ∧
      (removeExpiredWorkersGo now l uwc).2.2 =
        l.countP (fun e => e.2.isExpired now) := by
  intro l
  induction l with
  | nil => intro uwc; exact ⟨rfl, rfl⟩
  | cons e rest ih =>
      intro uwc
      cases hexp : e.2.isExpired now with
      | true =>
          obtain ⟨ih1, ih2⟩ := ih (decUserWorkerCount uwc e.1.1)
          constructor
          · rw [List.filter_cons]
            simp only [hexp, Bool.not_true, if_false]
            simpa [removeExpiredWorkersGo, hexp] using ih1
          · rw [List.countP_cons]
            simp only [removeExpiredWorkersGo, hexp]
            simp [ih2]
      | false =>
          obtain ⟨ih1, ih2⟩ := ih uwc
          constructor
          · rw [List.filter_cons]
            simp only [hexp, Bool.not_false, if_true]
            simp only [removeExpiredWorkersGo, hexp]
            simp [ih1]
          · rw [List.countP_cons]
            simp only [removeExpiredWorkersGo, hexp]
            simp [ih2]

theorem removeExpiredWorkersGo_uwc (now : Nat) :
    ∀ (l : List (WorkerKey × WorkerShares)) (uwc : List (Int × Int)),
      (removeExpiredWorkersGo now l uwc).2.1 =
        (l.filter (fun e => e.2.isExpired now)).foldl
          (fun m e => decUserWorkerCount m e.1.1) uwc := by
  intro l
  induction l with
  | nil => intro uwc; rfl
  | cons e rest ih =>
      intro uwc
      cases hexp : e.2.isExpired now with
      | true =>
          rw [List.filter_cons]
          simp only [hexp, if_true, List.foldl_cons]
          simp only [removeExpiredWorkersGo, hexp]
          simp [ih]
      | false =>
          rw [List.filter_cons]
          simp only [hexp, if_false]
          simp only [removeExpiredWorkersGo, hexp]
          simp [ih]

theorem all_not_of_filter_not {α : Type} (l : List α) (p : α → Bool) :
    (l.filter (fun a => ! p a)).all (fun a => ! p a) = true := by
  rw [List.all_eq_true]
  intro a ha
  exact (List.mem_filter.mp ha).2

/-- C4: after `removeExpiredWorkers` at time `now`, no surviving worker or
user aggregate satisfies `last_share_time + horizon < now`; the totals drop
by exactly the number of removed workers and users; and the per-user
worker-count map is the result of one decrement-and-erase-at-zero step per
removed worker, in removal order. -/
theorem removeExpiredWorkers_spec (now : Nat) (st : StatsServer) :
    ((st.removeExpiredWorkers now).workerSet.all
      (fun e => ! decide (e.2.lastShareTime + STATS_SLIDING_WINDOW_SECONDS < now))) = true ∧
    ((st.removeExpiredWorkers now).userSet.all
      (fun e => ! decide (e.2.lastShareTime + STATS_SLIDING_WINDOW_SECONDS < now))) = true ∧
    (st.removeExpiredWorkers now).totalWorkerCount =
      st.totalWorkerCount - st.workerSet.countP (fun e => e.2.isExpired now) ∧
    (st.removeExpiredWorkers now).totalUserCount =
      st.totalUserCount - st.userSet.countP (fun e => e.2.isExpired now) ∧
    (st.removeExpiredWorkers now).userWorkerCount =
      (st.workerSet.filter (fun e => e.2.isExpired now)).foldl
        (fun m e => decUserWorkerCount m e.1.1) st.userWorkerCount := by
  obtain ⟨h1, h2⟩ := removeExpiredWorkersGo_kept now st.workerSet st.userWorkerCount
  have h3 := removeExpiredWorkersGo_uwc now st.workerSet st.userWorkerCount
  unfold StatsServer.removeExpiredWorkers
  refine ⟨?_, ?_, ?_, ?_, ?_⟩ <;> dsimp only
  · rw [h1]
    exact all_not_of_filter_not st.workerSet (fun e => e.2.isExpired now)
  · exact all_not_of_filter_not st.userSet (fun e => e.2.isExpired now)
  · rw [h2]
  · exact h3

/-- Inserting a positive value into a nonempty window always changes it:
the addressed bucket either gains a new slot key or strictly grows. -/
theorem StatsWindow.insert_ne_self (w : StatsWindow) (k v : Nat) (hv : 0 < v)
    (hlen : 0 < w.buckets.length) : w.insert k v ≠ w := by
  intro heq
  have hi : k % w.buckets.length < w.buckets.length := Nat.mod_lt _ hlen
  unfold StatsWindow.insert at heq
  cases hget : w.buckets.get? (k % w.buckets.length) with
  | none =>
      rw [List.get?_eq_getElem?, List.getElem?_eq_none_iff] at hget
      omega
  | some b =>
      obtain ⟨sk, old⟩ := b
      simp only [hget] at heq
      have hbuck := congrArg StatsWindow.buckets heq
      dsimp only at hbuck
      have hset :
          (w.buckets.set (k % w.buckets.length)
            (k, if sk = k then old + v else v))[k % w.buckets.length]? =
            some (k, if sk = k then old + v else v) :=
        List.getElem?_set_eq_of_lt _ hi
      rw [hbuck] at hset
      rw [List.get?_eq_getElem?] at hget
      rw [hget] at hset
      injection hset with hpair
      by_cases hsk : sk = k
      · rw [if_pos hsk] at hpair
        have h2 := congrArg Prod.snd hpair
        dsimp only at h2
        omega
      · have h1 := congrArg Prod.fst hpair
        dsimp only at h1
        exact hsk h1

/-- Helper: `_processShare` never touches the pool aggregate. -/
theorem _processShare_poolWorker (now : Nat) (st : StatsServer) (key : WorkerKey)
    (sh : Share) : (st._processShare now key sh).poolWorker = st.poolWorker := by
  unfold StatsServer._processShare
  cases hwf : (alookup st.workerSet key).isSome <;>
    cases huf : (alookup st.userSet key.1).isSome <;>
      simp [hwf, huf]

/-- Everything `processShare` may touch except the bookkeeping field
`lastShareTime_` (which is recorded even for skipped shares): the three
registry maps, the two totals and the pool aggregate. -/
def StatsServer.core (st : StatsServer) :
    List (WorkerKey × WorkerShares) × List (Int × WorkerShares) × List (Int × Int) ×
      Nat × Nat × WorkerShares :=
  (st.workerSet, st.userSet, st.userWorkerCount, st.totalWorkerCount,
   st.totalUserCount, st.poolWorker)

/-- C6: `StatsServer::processShare` leaves the pool/worker/user aggregates
and the registry maps unchanged exactly when `now - timestamp > horizon`;
in particular a share with `timestamp = now - horizon` is processed and one
with `timestamp = now - horizon - 1` is skipped. -/
theorem server_processShare_skip_iff (now : Nat) (st : StatsServer) (sh : Share)
    (hv : 0 < sh.share)
    (hr : st.poolWorker.rejectShareMin.buckets.length = STATS_SLIDING_WINDOW_SECONDS / 60) :
    ((st.processShare now sh).core = st.core ↔
      sh.timestamp + STATS_SLIDING_WINDOW_SECONDS < now) ∧
    (STATS_SLIDING_WINDOW_SECONDS ≤ now →
      sh.timestamp = now - STATS_SLIDING_WINDOW_SECONDS →
      (st.processShare now sh).core ≠ st.core) ∧
    (STATS_SLIDING_WINDOW_SECONDS + 1 ≤ now →
      sh.timestamp = now - STATS_SLIDING_WINDOW_SECONDS - 1 →
      (st.processShare now sh).core = st.core) := by
  have hiff : (st.processShare now sh).core = st.core ↔
      sh.timestamp + STATS_SLIDING_WINDOW_SECONDS < now := by
    constructor
    · intro hcore
      by_contra hin
      have hpool := congrArg (fun c => c.2.2.2.2.2) hcore
      dsimp only [StatsServer.core] at hpool
      have heq2 : (st.processShare now sh).poolWorker =
          st.poolWorker.processShare now sh := by
        simp only [StatsServer.processShare]
        rw [if_neg hin, _processShare_poolWorker]
      rw [heq2] at hpool
      unfold WorkerShares.processShare at hpool
      rw [if_neg hin] at hpool
      cases hres : sh.result with
      | ACCEPT =>
          rw [hres] at hpool
          dsimp only at hpool
          have hcnt := congrArg WorkerShares.acceptCount hpool
          dsimp only at hcnt
          omega
      | REJECT =>
          rw [hres] at hpool
          dsimp only at hpool
          have hwin := congrArg WorkerShares.rejectShareMin hpool
          dsimp only at hwin
          have hlen : 0 < st.poolWorker.rejectShareMin.buckets.length := by
            rw [hr]
            decide
          exact StatsWindow.insert_ne_self _ _ _ hv hlen hwin
    · intro hskip
      simp only [StatsServer.processShare]
      rw [if_pos hskip]
      rfl
  refine ⟨hiff, ?_, ?_⟩
  · intro hle hts
    intro hcore
    have := hiff.mp hcore
    omega
  · intro hle hts
    apply hiff.mpr
    omega

/-- Witness for `server_processShare_skip_iff` at a concrete input. -/
theorem server_processShare_skip_iff_witness :
    ((StatsServer.mkServer.processShare 100 cexShare).core = StatsServer.mkServer.core ↔
      cexShare.timestamp + STATS_SLIDING_WINDOW_SECONDS < 100) ∧
    (STATS_SLIDING_WINDOW_SECONDS ≤ 100 →
      cexShare.timestamp = 100 - STATS_SLIDING_WINDOW_SECONDS →
      (StatsServer.mkServer.processShare 100 cexShare).core ≠ StatsServer.mkServer.core) ∧
    (STATS_SLIDING_WINDOW_SECONDS + 1 ≤ 100 →
      cexShare.timestamp = 100 - STATS_SLIDING_WINDOW_SECONDS - 1 →
      (StatsServer.mkServer.processShare 100 cexShare).core = StatsServer.mkServer.core) :=
  server_processShare_skip_iff 100 StatsServer.mkServer cexShare (by decide)
    (by simp [StatsServer.mkServer, WorkerShares.mkShares, StatsWindow.mkWindow])

/-- The `ShareStatsDay` rollup accumulator: 24 hour buckets plus day
totals for accepted weight, rejected weight and score, and the dirty-hours
bitmask.  Scores (C `double`) are modelled as exact rationals. -/
structure ShareStatsDay where
  shareAccept1h : Fin 24 → Nat
  shareReject1h : Fin 24 → Nat
  score1h : Fin 24 → Rat
  shareAccept1d : Nat
  shareReject1d : Nat
  score1d : Rat
  modifyHoursFlag : Nat

/-- Constructor `ShareStatsDay::ShareStatsDay()` (Statistics.cc lines 1807–1815): all
buckets, totals and the bitmask are zeroed. -/
def ShareStatsDay.zeroStats : ShareStatsDay :=
  { shareAccept1h := fun _ => 0
    shareReject1h := fun _ => 0
    score1h := fun _ => 0
    shareAccept1d := 0
    shareReject1d := 0
    score1d := 0
    modifyHoursFlag := 0 }

/-- Source `ShareStatsDay::processShare` (Statistics.cc lines 1817–1831): ACCEPT
adds the weight to the hour and day accept buckets and the score to the
hour and day score buckets; REJECT adds the weight to the reject buckets;
both set bit `hourIdx` of `modifyHoursFlag_`. -/
def ShareStatsDay.processShare (d : ShareStatsDay) (hourIdx : Fin 24) (sh : Share) :
    ShareStatsDay :=
  match sh.result with
  | ShareResult.ACCEPT =>
      { d with
        shareAccept1h :=
          Function.update d.shareAccept1h hourIdx (d.shareAccept1h hourIdx + sh.share)
        shareAccept1d := d.shareAccept1d + sh.share
        score1h := Function.update d.score1h hourIdx (d.score1h hourIdx + sh.score)
        score1d := d.score1d + sh.score
        modifyHoursFlag := d.modifyHoursFlag ||| (1 <<< (hourIdx : Nat)) }
  | ShareResult.REJECT =>
      { d with
        shareReject1h :=
          Function.update d.shareReject1h hourIdx (d.shareReject1h hourIdx + sh.share)
        shareReject1d := d.shareReject1d + sh.share
        modifyHoursFlag := d.modifyHoursFlag ||| (1 <<< (hourIdx : Nat)) }

/-- The hour buckets of a `ShareStatsDay` sum to the day totals. -/
def DayInv (d : ShareStatsDay) : Prop :=
  (∑ i, d.shareAccept1h i) = d.shareAccept1d ∧
  (∑ i, d.shareReject1h i) = d.shareReject1d ∧
  (∑ i, d.score1h i) = d.score1d

theorem sum_update_add {M : Type} [AddCommMonoid M] (f : Fin 24 → M) (i : Fin 24)
    (c : M) : (∑ j, Function.update f i (f i + c) j) = (∑ j, f j) + c := by
  rw [Finset.sum_update_of_mem (Finset.mem_univ i)]
  have hd : (Finset.univ : Finset (Fin 24)) \ {i} = Finset.univ.erase i := by
    rw [Finset.erase_eq]
  rw [hd, ← Finset.add_sum_erase _ f (Finset.mem_univ i)]
  abel

theorem dayInv_processShare (d : ShareStatsDay) (hourIdx : Fin 24) (sh : Share)
    (h : DayInv d) : DayInv (d.processShare hourIdx sh) := by
  obtain ⟨ha, hr, hs⟩ := h
  unfold ShareStatsDay.processShare
  cases sh.result with
  | ACCEPT =>
      refine ⟨?_, ?_, ?_⟩ <;> dsimp only
      · rw [sum_update_add, ha]
      · exact hr
      · rw [sum_update_add, hs]
  | REJECT =>
      refine ⟨?_, ?_, ?_⟩ <;> dsimp only
      · exact ha
      · rw [sum_update_add, hr]
      · exact hs

theorem dayInv_zeroStats : DayInv ShareStatsDay.zeroStats := by
  refine ⟨?_, ?_, ?_⟩ <;> simp [ShareStatsDay.zeroStats]

/-- Run a sequence of `processShare(hourIdx, share)` calls on the
zero-initialised accumulator. -/
def runDayOps (ops : List (Fin 24 × Share)) : ShareStatsDay :=
  ops.foldl (fun d p => d.processShare p.1 p.2) ShareStatsDay.zeroStats

theorem dayInv_foldl (ops : List (Fin 24 × Share)) :
    ∀ d : ShareStatsDay, DayInv d →
      DayInv (ops.foldl (fun d p => d.processShare p.1 p.2) d) := by
  induction ops with
  | nil => intro d h; exact h
  | cons p rest ih => intro d h; exact ih _ (dayInv_processShare d p.1 p.2 h)

/-- C5: after any sequence of `processShare(hourIdx, share)` calls from the
zero-initialised `ShareStatsDay`, each day total equals the sum of its 24
hour buckets; and every single `processShare` call sets bit `hourIdx` of
the dirty-hours mask. -/
theorem shareStatsDay_invariant (ops : List (Fin 24 × Share)) :
    ((∑ i, (runDayOps ops).shareAccept1h i) = (runDayOps ops).shareAccept1d ∧
     (∑ i, (runDayOps ops).shareReject1h i) = (runDayOps ops).shareReject1d ∧
     (∑ i, (runDayOps ops).score1h i) = (runDayOps ops).score1d) ∧
    ∀ (d : ShareStatsDay) (hourIdx : Fin 24) (sh : Share),
      ((d.processShare hourIdx sh).modifyHoursFlag).testBit (hourIdx : Nat) = true := by
  constructor
  · exact dayInv_foldl ops ShareStatsDay.zeroStats dayInv_zeroStats
  · intro d hourIdx sh
    have hbit : ∀ m : Nat,
        (m ||| (1 <<< (hourIdx : Nat))).testBit (hourIdx : Nat) = true := by
      intro m
      rw [Nat.testBit_or, Nat.shiftLeft_eq, one_mul, Nat.testBit_two_pow_self]
      exact Bool.or_true _
    unfold ShareStatsDay.processShare
    cases sh.result <;> dsimp only <;> exact hbit _

/-- Truncation of a rational toward zero, the semantics of C's
`double`-to-`int64` conversion used for the `earn_` field. -/
def truncQ (q : Rat) : Int :=
  if 0 ≤ q then ((q.num.toNat / q.den : Nat) : Int)
  else - (((-q.num).toNat / q.den : Nat) : Int)

/-- Modelled from the spec: the single multiplicative block-reward
constant; its value is defined outside this translation unit and does not
matter to the claims. -/
def BLOCK_REWARD : Rat := 2500000000

/-- The `ShareStats` result record of a stats query: accepted and rejected
weights, the (integer) earn and the reject rate. -/
structure ShareStats where
  shareAccept : Nat
  shareReject : Nat
  earn : Int
  rejectRate : Rat

/-- Source `ShareStatsDay::getShareStatsHour` (Statistics.cc lines 1833–1845): an
out-of-range hour leaves the output untouched (modelled as `none`);
otherwise the hour's buckets are copied, `earn_ = score * BLOCK_REWARD`
(converted to integer) and the reject rate is `reject / (accept + reject)`
when the reject bucket is nonzero, else 0. -/
def ShareStatsDay.getShareStatsHour (d : ShareStatsDay) (hourIdx : Nat) :
    Option ShareStats :=
  if hgt : hourIdx > 23 then none
  else
    let i : Fin 24 := ⟨hourIdx, by omega⟩
    some
      { shareAccept := d.shareAccept1h i
        shareReject := d.shareReject1h i
        earn := truncQ (d.score1h i * BLOCK_REWARD)
        rejectRate :=
          if d.shareReject1h i ≠ 0 then
            ((d.shareReject1h i : Rat)) /
              ((d.shareAccept1h i : Rat) + (d.shareReject1h i : Rat))
          else 0 }

/-- Source `ShareStatsDay::getShareStatsDay` (Statistics.cc lines 1847–1856). -/
def ShareStatsDay.getShareStatsDay (d : ShareStatsDay) : ShareStats :=
  { shareAccept := d.shareAccept1d
    shareReject := d.shareReject1d
    earn := truncQ (d.score1d * BLOCK_REWARD)
    rejectRate :=
      if d.shareReject1d ≠ 0 then
        ((d.shareReject1d : Rat)) / ((d.shareAccept1d : Rat) + (d.shareReject1d : Rat))
      else 0 }

/-- C7: every in-range hour query and every day query returns a record
whose reject rate is `reject / (accept + reject)` when the reject total is
nonzero and 0 otherwise, and whose earn is `score * BLOCK_REWARD` truncated
to an integer. -/
theorem shareStats_query_spec (d : ShareStatsDay) (i : Fin 24) :
    d.getShareStatsHour (i : Nat) =
      some
        { shareAccept := d.shareAccept1h i
          shareReject := d.shareReject1h i
          earn := truncQ (d.score1h i * BLOCK_REWARD)
          rejectRate :=
            if d.shareReject1h i ≠ 0 then
              ((d.shareReject1h i : Rat)) /
                ((d.shareAccept1h i : Rat) + (d.shareReject1h i : Rat))
            else 0 } ∧
    d.getShareStatsDay =
      { shareAccept := d.shareAccept1d
        shareReject := d.shareReject1d
        earn := truncQ (d.score1d * BLOCK_REWARD)
        rejectRate :=
          if d.shareReject1d ≠ 0 then
            ((d.shareReject1d : Rat)) /
              ((d.shareAccept1d : Rat) + (d.shareReject1d : Rat))
          else 0 } := by
  constructor
  · have hle : ¬ (i : Nat) > 23 := by
      have := i.isLt
      omega
    unfold ShareStatsDay.getShareStatsHour
    rw [dif_neg hle]
  · rfl

/-- Day bucket of a timestamp: `ts - ts % 86400` (Statistics.cc line
1741). -/
def dayBucket (ts : Nat) : Nat := ts - ts % 86400

/-- The `ShareLogWriter` state: the sorted cache of open day-file handles
(modelled by their day-bucket keys, kept in `std::map` key order), the
on-disk contents of each day file, and the in-memory share buffer. -/
structure ShareLogWriter where
  fileHandlers : List Nat
  files : List (Nat × List Share)
  shares : List Share

/-- Content of a day file (empty if never written). -/
def filesGet (files : List (Nat × List Share)) (k : Nat) : List Share :=
  (alookup files k).getD []

/-- An `fwrite` of one record to a day file (append mode). -/
def appendShareToFile (files : List (Nat × List Share)) (k : Nat) (sh : Share) :
    List (Nat × List Share) :=
  match alookup files k with
  | some _ => aupdate files k (fun c => c ++ [sh])
  | none => (k, [sh]) :: files

/-- Source `ShareLogWriter::getFileHandler` (Statistics.cc lines 1665–1681): a
cache hit returns the open handle; otherwise the day file is opened in
append mode and cached under its day-bucket key. -/
def ShareLogWriter.getFileHandler (st : ShareLogWriter) (ts : Nat) : ShareLogWriter :=
  if ts ∈ st.fileHandlers then st
  else { st with fileHandlers := List.orderedInsert (· ≤ ·) ts st.fileHandlers }

/-- The per-share body of the flush loop (Statistics.cc lines 1740–1748):
compute the day bucket, obtain the handle and `fwrite` the record. -/
def ShareLogWriter.writeOne (st : ShareLogWriter) (sh : Share) : ShareLogWriter :=
  let ts := sh.timestamp - sh.timestamp % 86400
  let st1 := st.getFileHandler ts
  { st1 with files := appendShareToFile st1.files ts sh }

/-- Source `ShareLogWriter::tryCloseOldHanders` (Statistics.cc lines 1724–1735):
while more than 3 handles are cached, close the one with the smallest key
(the first element of the sorted `std::map`). -/
def tryCloseOldHanders : List Nat → List Nat
  | [] => []
  | x :: xs => if xs.length + 1 > 3 then tryCloseOldHanders xs else x :: xs

/-- Source `ShareLogWriter::flushToDisk` (Statistics.cc lines 1737–1760): write
every buffered share to its day file, clear the buffer, then close old
handles. -/
def ShareLogWriter.flushToDisk (st : ShareLogWriter) : ShareLogWriter :=
  let st1 := st.shares.foldl ShareLogWriter.writeOne st
  { st1 with shares := [], fileHandlers := tryCloseOldHanders st1.fileHandlers }

theorem getFileHandler_files (st : ShareLogWriter) (ts : Nat) :
    (st.getFileHandler ts).files = st.files := by
  unfold ShareLogWriter.getFileHandler
  split <;> rfl

theorem filesGet_append (files : List (Nat × List Share)) (k k2 : Nat) (sh : Share) :
    filesGet (appendShareToFile files k sh) k2 =
      if k2 = k then filesGet files k2 ++ [sh] else filesGet files k2 := by
  unfold appendShareToFile filesGet
  cases hl : alookup files k with
  | some c =>
      by_cases hk : k2 = k
      · subst hk
        rw [alookup_aupdate_self, hl, if_pos rfl]
        rfl
      · rw [alookup_aupdate_ne files k k2 _ (fun h => hk h.symm), if_neg hk]
  | none =>
      by_cases hk : k2 = k
      · subst hk
        rw [alookup_cons, if_pos rfl, hl, if_pos rfl]
        rfl
      · rw [alookup_cons, if_neg (fun h => hk h.symm), if_neg hk]

theorem writeAll_filesGet (buf : List Share) :
    ∀ (st : ShareLogWriter) (k : Nat),
      filesGet (buf.foldl ShareLogWriter.writeOne st).files k =
        filesGet st.files k ++
          buf.filter (fun sh => decide (dayBucket sh.timestamp = k)) := by
  induction buf with
  | nil => intro st k; simp
  | cons sh rest ih =>
      intro st k
      rw [List.foldl_cons, ih, List.filter_cons]
      have hw : filesGet (st.writeOne sh).files k =
          if k = dayBucket sh.timestamp then filesGet st.files k ++ [sh]
          else filesGet st.files k := by
        unfold ShareLogWriter.writeOne
        dsimp only
        rw [getFileHandler_files]
        exact filesGet_append st.files (sh.timestamp - sh.timestamp % 86400) k sh
      rw [hw]
      by_cases hk : dayBucket sh.timestamp = k
      · rw [if_pos (hk.symm), if_pos (by exact_mod_cast decide_eq_true hk)]
        simp
      · rw [if_neg (fun h => hk h.symm)]
        have : (decide (dayBucket sh.timestamp = k)) = false := decide_eq_false hk
        rw [this]
        simp

theorem writeAll_shares (buf : List Share) :
    ∀ st : ShareLogWriter,
      (buf.foldl ShareLogWriter.writeOne st).shares = st.shares := by
  induction buf with
  | nil => intro st; rfl
  | cons sh rest ih =>
      intro st
      rw [List.foldl_cons, ih]
      unfold ShareLogWriter.writeOne ShareLogWriter.getFileHandler
      dsimp only
      split <;> rfl

theorem writeAll_sorted (buf : List Share) :
    ∀ st : ShareLogWriter, st.fileHandlers.Sorted (· ≤ ·) →
      (buf.foldl ShareLogWriter.writeOne st).fileHandlers.Sorted (· ≤ ·) := by
  induction buf with
  | nil => intro st h; exact h
  | cons sh rest ih =>
      intro st h
      rw [List.foldl_cons]
      apply ih
      unfold ShareLogWriter.writeOne ShareLogWriter.getFileHandler
      dsimp only
      split
      · exact h
      · exact List.Sorted.orderedInsert _ _ h

theorem tryCloseOldHanders_drop (l : List Nat) :
    tryCloseOldHanders l = l.drop (l.length - 3) := by
  induction l with
  | nil => rfl
  | cons x xs ih =>
      unfold tryCloseOldHanders
      by_cases hlen : xs.length + 1 > 3
      · rw [if_pos hlen, ih]
        have harith : (x :: xs).length - 3 = (xs.length - 3) + 1 := by
          simp only [List.length_cons]
          omega
        rw [harith, List.drop_succ_cons]
      · rw [if_neg hlen]
        have harith : (x :: xs).length - 3 = 0 := by
          simp only [List.length_cons]
          omega
        rw [harith, List.drop_zero]

/-- C8: flushing writes every buffered share (in order) to the file keyed
by `timestamp - timestamp % 86400`, empties the buffer, leaves the handle
cache sorted with at most 3 entries, and handle eviction always removes the
smallest day-bucket keys, keeping only the largest ones. -/
theorem shareLogWriter_flush_spec (st : ShareLogWriter)
    (hs : st.fileHandlers.Sorted (· ≤ ·)) :
    (∀ k, filesGet (st.flushToDisk).files k =
      filesGet st.files k ++
        st.shares.filter (fun sh => decide (dayBucket sh.timestamp = k))) ∧
    (st.flushToDisk).shares = [] ∧
    (st.flushToDisk).fileHandlers.length ≤ 3 ∧
    (st.flushToDisk).fileHandlers.Sorted (· ≤ ·) ∧
    (∀ l : List Nat, l.Sorted (· ≤ ·) →
      tryCloseOldHanders l = l.drop (l.length - 3) ∧
      ∀ x ∈ l.take (l.length - 3), ∀ y ∈ tryCloseOldHanders l, x ≤ y) := by
  have hsorted1 : (st.shares.foldl ShareLogWriter.writeOne st).fileHandlers.Sorted (· ≤ ·) :=
    writeAll_sorted st.shares st hs
  refine ⟨?_, rfl, ?_, ?_, ?_⟩
  · intro k
    unfold ShareLogWriter.flushToDisk
    dsimp only
    exact writeAll_filesGet st.shares st k
  · unfold ShareLogWriter.flushToDisk
    dsimp only
    rw [tryCloseOldHanders_drop, List.length_drop]
    omega
  · unfold ShareLogWriter.flushToDisk
    dsimp only
    rw [tryCloseOldHanders_drop]
    exact List.Pairwise.sublist (List.drop_sublist _ _) hsorted1
  · intro l hl
    refine ⟨tryCloseOldHanders_drop l, ?_⟩
    intro x hx y hy
    rw [tryCloseOldHanders_drop] at hy
    have hp : List.Pairwise (· ≤ ·) (l.take (l.length - 3) ++ l.drop (l.length - 3)) := by
      rw [List.take_append_drop]
      exact hl
    exact (List.pairwise_append.mp hp).2.2 x hx y hy

/-- Writer state used by the C8 witness: no open handles, empty disk, one
buffered share. -/
def cexWriter : ShareLogWriter :=
  { fileHandlers := [], files := [], shares := [cexShare] }

/-- Witness for `shareLogWriter_flush_spec` at a concrete input. -/
theorem shareLogWriter_flush_spec_witness :
    (∀ k, filesGet cexWriter.flushToDisk.files k =
      filesGet cexWriter.files k ++
        cexWriter.shares.filter (fun sh => decide (dayBucket sh.timestamp = k))) ∧
    cexWriter.flushToDisk.shares = [] ∧
    cexWriter.flushToDisk.fileHandlers.length ≤ 3 ∧
    cexWriter.flushToDisk.fileHandlers.Sorted (· ≤ ·) ∧
    (∀ l : List Nat, l.Sorted (· ≤ ·) →
      tryCloseOldHanders l = l.drop (l.length - 3) ∧
      ∀ x ∈ l.take (l.length - 3), ∀ y ∈ tryCloseOldHanders l, x ≤ y) :=
  shareLogWriter_flush_spec cexWriter List.sorted_nil

/-- Modelled from the spec: `kMaxElementsNum_` (header constant) — the
replayer reads chunks of up to ~2 million shares; the source comment
"2000000 * 48 = 96,000,000 Bytes" fixes the value. -/
def kMaxElementsNum : Nat := 2000000

/-- Record size `sizeof(Share)` = 48 bytes, per the source comment
"2000000 * 48 = 96,000,000 Bytes". -/
def shareRecordSize : Nat := 48

/-- Modelled from the spec: `getHourIdx` (header helper) —
`hour_index = (timestamp mod 86400) / 3600`. -/
def getHourIdx (ts : Nat) : Fin 24 :=
  ⟨ts % 86400 / 3600, by omega⟩

/-- Ensure a `ShareStatsDay` entry exists for a key
(`workersStats_[key] = make_shared<ShareStatsDay>()` on a miss). -/
def statsEnsure (m : List (WorkerKey × ShareStatsDay)) (k : WorkerKey) :
    List (WorkerKey × ShareStatsDay) :=
  if (alookup m k).isSome then m else (k, ShareStatsDay.zeroStats) :: m

/-- Feed one share to the entry stored under a key. -/
def statsApply (m : List (WorkerKey × ShareStatsDay)) (k : WorkerKey)
    (hourIdx : Fin 24) (sh : Share) : List (WorkerKey × ShareStatsDay) :=
  aupdate m k (fun d => d.processShare hourIdx sh)

/-- Source `ShareLogParser::parseShare` (Statistics.cc lines 1995–2018): skip
invalid shares; otherwise create missing worker/user entries (the pool
entry exists from the constructor) and feed the share to the worker, user
and pool `ShareStatsDay` entries under its hour index. -/
def ShareLogParser.parseShare (m : List (WorkerKey × ShareStatsDay)) (sh : Share) :
    List (WorkerKey × ShareStatsDay) :=
  if ! sh.isValid then m
  else
    let wkey : WorkerKey := (sh.userId, sh.workerHashId)
    let ukey : WorkerKey := (sh.userId, 0)
    let pkey : WorkerKey := (0, 0)
    let m1 := statsEnsure (statsEnsure m wkey) ukey
    let hourIdx := getHourIdx sh.timestamp
    statsApply (statsApply (statsApply m1 wkey hourIdx sh) ukey hourIdx sh) pkey hourIdx sh

/-- The `ShareLogParser` replay state: the authoritative byte cursor
`lastPosition_`, the stream's own (non-authoritative) position, and the
rollup map. -/
structure ShareLogParser where
  lastPosition : Nat
  streamPos : Nat
  workersStats : List (WorkerKey × ShareStatsDay)

/-- The freshly constructed parser: cursor 0 and a pool entry. -/
def ShareLogParser.mkParser : ShareLogParser :=
  { lastPosition := 0
    streamPos := 0
    workersStats := [(((0 : Int), (0 : Int)), ShareStatsDay.zeroStats)] }

/-- Number of whole records an `fread` of up to `kMaxElementsNum_` elements
returns when the file holds `file.length` records and reading starts at
byte `pos`. -/
def readCount (file : List Share) (pos : Nat) : Nat :=
  min kMaxElementsNum ((file.length * shareRecordSize - pos) / shareRecordSize)

/-- Source `ShareLogParser::processGrowingShareLog` (Statistics.cc lines
2055–2089): `fseek` to the tracked cursor, `fread` up to the chunk size,
return 0 on a zero-read, otherwise advance the cursor by exactly the bytes
read and parse the records. -/
def ShareLogParser.processGrowingShareLog (file : List Share) (st : ShareLogParser) :
    Int × ShareLogParser :=
  let pos := st.lastPosition
  let readNum := readCount file pos
  if readNum = 0 then (0, { st with streamPos := pos })
  else
    ((readNum : Int),
     { lastPosition := pos + readNum * shareRecordSize
       streamPos := pos + readNum * shareRecordSize
       workersStats :=
         ((file.drop (pos / shareRecordSize)).take readNum).foldl
           ShareLogParser.parseShare st.workersStats })

/-- C9: each tick reads starting at the tracked cursor (the stream's own
position is irrelevant), returns the number of whole records read, advances
the cursor by exactly that many record sizes (so it stays a multiple of the
record size), and a zero-read returns 0 leaving the cursor and the rollups
unchanged. -/
theorem processGrowing_cursor_spec (file : List Share) (st : ShareLogParser)
    (hal : shareRecordSize ∣ st.lastPosition) :
    (∀ sp : Nat,
      ShareLogParser.processGrowingShareLog file { st with streamPos := sp } =
        ShareLogParser.processGrowingShareLog file st) ∧
    (ShareLogParser.processGrowingShareLog file st).1 =
      ((readCount file st.lastPosition : Nat) : Int) ∧
    (ShareLogParser.processGrowingShareLog file st).2.lastPosition =
      st.lastPosition + readCount file st.lastPosition * shareRecordSize ∧
    shareRecordSize ∣ (ShareLogParser.processGrowingShareLog file st).2.lastPosition ∧
    (readCount file st.lastPosition = 0 →
      (ShareLogParser.processGrowingShareLog file st).1 = 0 ∧
      (ShareLogParser.processGrowingShareLog file st).2.lastPosition = st.lastPosition ∧
      (ShareLogParser.processGrowingShareLog file st).2.workersStats = st.workersStats) ∧
    (readCount file st.lastPosition ≠ 0 →
      (ShareLogParser.processGrowingShareLog file st).2.workersStats =
        ((file.drop (st.lastPosition / shareRecordSize)).take
          (readCount file st.lastPosition)).foldl
            ShareLogParser.parseShare st.workersStats) := by
  by_cases h0 : readCount file st.lastPosition = 0
  · refine ⟨?_, ?_, ?_, ?_, ?_, ?_⟩
    · intro sp
      simp [ShareLogParser.processGrowingShareLog, h0]
    · simp [ShareLogParser.processGrowingShareLog, h0]
    · simp [ShareLogParser.processGrowingShareLog, h0]
    · simp only [ShareLogParser.processGrowingShareLog, h0, if_pos]
      exact hal
    · intro _
      refine ⟨?_, ?_, ?_⟩ <;> simp [ShareLogParser.processGrowingShareLog, h0]
    · intro hne
      exact absurd h0 hne
  · refine ⟨?_, ?_, ?_, ?_, ?_, ?_⟩
    · intro sp
      simp [ShareLogParser.processGrowingShareLog, h0]
    · simp [ShareLogParser.processGrowingShareLog, h0]
    · simp [ShareLogParser.processGrowingShareLog, h0]
    · simp only [ShareLogParser.processGrowingShareLog, h0, if_neg]
      exact Dvd.dvd.add hal (Dvd.intro_left _ rfl)
    · intro hz
      exact absurd hz h0
    · intro _
      simp [ShareLogParser.processGrowingShareLog, h0]

/-- Witness for `processGrowing_cursor_spec` at a concrete input. -/
theorem processGrowing_cursor_spec_witness :
    (∀ sp : Nat,
      ShareLogParser.processGrowingShareLog [cexShare]
          { ShareLogParser.mkParser with streamPos := sp } =
        ShareLogParser.processGrowingShareLog [cexShare] ShareLogParser.mkParser) ∧
    (ShareLogParser.processGrowingShareLog [cexShare] ShareLogParser.mkParser).1 =
      ((readCount [cexShare] ShareLogParser.mkParser.lastPosition : Nat) : Int) ∧
    (ShareLogParser.processGrowingShareLog [cexShare] ShareLogParser.mkParser).2.lastPosition =
      ShareLogParser.mkParser.lastPosition +
        readCount [cexShare] ShareLogParser.mkParser.lastPosition * shareRecordSize ∧
    shareRecordSize ∣
      (ShareLogParser.processGrowingShareLog [cexShare] ShareLogParser.mkParser).2.lastPosition ∧
    (readCount [cexShare] ShareLogParser.mkParser.lastPosition = 0 →
      (ShareLogParser.processGrowingShareLog [cexShare] ShareLogParser.mkParser).1 = 0 ∧
      (ShareLogParser.processGrowingShareLog [cexShare] ShareLogParser.mkParser).2.lastPosition =
        ShareLogParser.mkParser.lastPosition ∧
      (ShareLogParser.processGrowingShareLog [cexShare] ShareLogParser.mkParser).2.workersStats =
        ShareLogParser.mkParser.workersStats) ∧
    (readCount [cexShare] ShareLogParser.mkParser.lastPosition ≠ 0 →
      (ShareLogParser.processGrowingShareLog [cexShare] ShareLogParser.mkParser).2.workersStats =
        (([cexShare].drop (ShareLogParser.mkParser.lastPosition / shareRecordSize)).take
          (readCount [cexShare] ShareLogParser.mkParser.lastPosition)).foldl
            ShareLogParser.parseShare ShareLogParser.mkParser.workersStats) :=
  processGrowing_cursor_spec [cexShare] ShareLogParser.mkParser ⟨0, rfl⟩
